import Mathlib

/-!
# Verification of the knowledge-graph discovery engine

A shallow embedding of the core of `src/path/research_paths.py`
(Research-Discovery-Engine): the metadata extractor (`get_node_metadata`),
the explicit link-graph builder (`build_explicit_link_graph`), the
co-occurrence builder (`build_cooccurrence_data`), the centrality and
community stage (`analyze_centrality_and_communities`), the probabilistic
knowledge-gap scorer (`analyze_probabilistic_knowledge_gaps`) and the
trajectory synthesizer (`synthesize_and_plot_trajectory`).

Modelling conventions:
* Python floats are modelled as exact rationals (`ℚ`); the Spearman
  correlation of the co-occurrence builder, which involves a square root,
  is modelled over `ℝ`.
* A markdown document is represented by the result of its regex scans:
  the ordered list of `###` section headers, each with the list of
  `[[./file.md#target]]` wiki links found inside that section, plus the
  links appearing before the first header.  (The Python code extracts
  these with `re.findall`/`re.split`; the regular-expression machinery
  itself is not modelled, only its output.)
* Python dicts are association lists; plotting, CSV writing and printing
  are side effects with no influence on the computed data and are elided.
-/

namespace RDE

/-- The fixed six-value category taxonomy (`NODE_CATEGORIES` values). -/
inductive Category where
  | Theory | Mechanism | Phenomenon | Method | Material | Application
deriving DecidableEq, Repr, Fintype

/-- The `{category, color}` record stored per concept in `node_info`. -/
structure NodeData where
  category : Category
  color : String
deriving DecidableEq, Repr

/-- `NODE_CATEGORIES`: maps a category document filename to its category
and display color; any other filename is not a category document. -/
def NODE_CATEGORIES (filename : String) : Option NodeData :=
  if filename = "applications.md" then some ⟨.Application, "#e41a1c"⟩
  else if filename = "materials.md" then some ⟨.Material, "#377eb8"⟩
  else if filename = "mechanisms.md" then some ⟨.Mechanism, "#4daf4a"⟩
  else if filename = "methods.md" then some ⟨.Method, "#984ea3"⟩
  else if filename = "phenomena.md" then some ⟨.Phenomenon, "#ff7f00"⟩
  else if filename = "theoretical.md" then some ⟨.Theory, "#a65628"⟩
  else none

/-- `CATEGORY_ORDER`: the fixed linear ordering of the taxonomy. -/
def CATEGORY_ORDER : List Category :=
  [.Theory, .Mechanism, .Phenomenon, .Method, .Material, .Application]

/-- `CATEGORY_ORDER.index(c)`: position of a category in the fixed order. -/
def catIdx (c : Category) : Nat := CATEGORY_ORDER.indexOf c

/-- `itertools.combinations(l, 2)`, in iteration order. -/
def pairsTwo {α : Type} : List α → List (α × α)
  | [] => []
  | x :: xs => xs.map (fun y => (x, y)) ++ pairsTwo xs

/-- A source document, represented by the output of the regex scans the
Python code performs on it: `sections` lists each `###` header together
with the `[[./file.md#target]]` links found in its section (a link is a
`(file, target)` pair, as captured by the two regex groups), and
`preambleLinks` are the links occurring before the first header. -/
structure Doc where
  filename : String
  preambleLinks : List (String × String)
  sections : List (String × List (String × String))
deriving DecidableEq, Repr

/-- The `###` headers of a document in document order
(`re.findall(r"###\s+([a-zA-Z0-9\-\_]+)", content)`). -/
def Doc.headers (d : Doc) : List String := d.sections.map (·.1)

/-- All link targets in a document, in document order: what
`link_regex.findall(open(mf).read())` yields (second group of each
match), used by the co-occurrence builder. -/
def Doc.allLinkTargets (d : Doc) : List String :=
  (d.preambleLinks ++ d.sections.flatMap (·.2)).map (·.2)

/-- The node registry `node_info`: a Python dict modelled as an
association list with unique keys, in insertion order. -/
abbrev NodeInfo : Type := List (String × NodeData)

/-- Dict lookup `node_info.get(u)`: first (and, for a dict, only)
binding of the key. -/
def infoGet : NodeInfo → String → Option NodeData
  | [], _ => none
  | (k, v) :: rest, u => if k = u then some v else infoGet rest u

/-- One header of the metadata loop: record `{category, color}` for a
header only if it is not yet present (`if header not in node_info`). -/
def insertHeader (data : NodeData) (acc : NodeInfo) (h : String) : NodeInfo :=
  if (infoGet acc h).isSome then acc else acc ++ [(h, data)]

/-- One document of the metadata loop: a category document contributes
its headers in document order; any other file contributes nothing. -/
def processDoc (acc : NodeInfo) (d : Doc) : NodeInfo :=
  match NODE_CATEGORIES d.filename with
  | none => acc
  | some data => d.headers.foldl (insertHeader data) acc

/-- `get_node_metadata(files)`: walk the files in processing order,
collecting first-wins `{category, color}` records per header. -/
def get_node_metadata (files : List Doc) : NodeInfo :=
  files.foldl processDoc []

/-- First document, in processing order, that is a category document and
defines the given concept id as a header. -/
def first_defining_doc (files : List Doc) (id : String) : Option Doc :=
  files.find? (fun d => decide ((NODE_CATEGORIES d.filename).isSome ∧ id ∈ d.headers))

/-- A `networkx.DiGraph` over concept ids: node list (insertion order)
and directed edge list.  Node attributes carry no information used by
the verified stages (categories are always read from `node_info`), so
they are not modelled. -/
structure Digraph where
  nodes : List String
  edges : List (String × String)
deriving DecidableEq, Repr

/-- `G.add_node(n)`: inserts the node if not present. -/
def Digraph.add_node (g : Digraph) (n : String) : Digraph :=
  if n ∈ g.nodes then g else { g with nodes := g.nodes ++ [n] }

/-- `G.add_edge(u, v)`: inserts both endpoints if missing, then the edge
if not already present (a `DiGraph` is simple: no multi-edges). -/
def Digraph.add_edge (g : Digraph) (u v : String) : Digraph :=
  let g1 := (g.add_node u).add_node v
  if (u, v) ∈ g1.edges then g1 else { g1 with edges := g1.edges ++ [(u, v)] }

/-- `set(G.successors(u))` as a list (targets of edges out of `u`). -/
def Digraph.successors (g : Digraph) (u : String) : List String :=
  g.edges.filterMap (fun e => if e.1 = u then some e.2 else none)

/-- Add the edges of one section: the Python inner loop
`for _, target_node in found_links: if target_node in G: G.add_edge(source_node, target_node)`. -/
def add_section_links (g : Digraph) (src : String) (links : List (String × String)) : Digraph :=
  links.foldl (fun g l => if l.2 ∈ g.nodes then g.add_edge src l.2 else g) g

/-- Add the edges contributed by one document: for each section whose
owning header is a node of the graph, add its in-registry link targets. -/
def add_doc_edges (g : Digraph) (d : Doc) : Digraph :=
  if (NODE_CATEGORIES d.filename).isSome then
    d.sections.foldl (fun g s => if s.1 ∈ g.nodes then add_section_links g s.1 s.2 else g) g
  else g

/-- `build_explicit_link_graph(files, node_info)`: a digraph with one
node per registry entry, plus one edge per (deduplicated) in-registry
cross-reference from a section owner to its link target. -/
def build_explicit_link_graph (files : List Doc) (info : NodeInfo) : Digraph :=
  files.foldl add_doc_edges (info.foldl (fun g p => g.add_node p.1) ⟨[], []⟩)

/-- The co-occurrence matrix as consumed by the gap scorer and the
trajectory synthesizer: a pandas `DataFrame` with row labels `index`,
column labels `cols` and entries `entry` (floats modelled as `ℚ`). -/
structure CoocMatrix where
  index : List String
  cols : List String
  entry : String → String → ℚ

/-- pandas `DataFrame.empty`: some axis has length zero. -/
def CoocMatrix.isEmpty (M : CoocMatrix) : Prop := M.index = [] ∨ M.cols = []

instance (M : CoocMatrix) : Decidable M.isEmpty := by
  unfold CoocMatrix.isEmpty; infer_instance

/-- Topological score of a candidate pair:
`len(set(G.successors(u)) & set(G.successors(v)))`. -/
def topo_score (g : Digraph) (u v : String) : Nat :=
  ((g.successors u).toFinset ∩ (g.successors v).toFinset).card

/-- Co-occurrence component of the gap score: `cooccurrence_matrix.loc[u, v]`
when `u` is a row label and `v` a column label, else the default `0.0`. -/
def cooc_score (M : CoocMatrix) (u v : String) : ℚ :=
  if u ∈ M.index ∧ v ∈ M.cols then M.entry u v else 0

/-- Category bridge bonus: `1.5` for a Theory/Application pair (either
orientation), `1.0` for a Material/Application pair, else `0`. -/
def bridge_bonus (cu cv : Category) : ℚ :=
  if (cu = .Theory ∧ cv = .Application) ∨ (cv = .Theory ∧ cu = .Application) then 3/2
  else if (cu = .Material ∧ cv = .Application) ∨ (cv = .Material ∧ cu = .Application) then 1
  else 0

/-- `predicted_link_strength = (2.0 * topo_score) + (1.0 * max(0, cooc_score)) + bridge_bonus`. -/
def predicted_link_strength (g : Digraph) (M : CoocMatrix) (cu cv : Category) (u v : String) : ℚ :=
  2 * (topo_score g u v : ℚ) + 1 * max 0 (cooc_score M u v) + bridge_bonus cu cv

/-- Python `round(q, 3)`, on the idealized exact value: round half to
even at the third decimal. -/
def round3 (q : ℚ) : ℚ :=
  let s := q * 1000
  let f := ⌊s⌋
  let r := s - f
  (if r < 1/2 then (f : ℚ) else if 1/2 < r then (f : ℚ) + 1
   else if Even f then (f : ℚ) else (f : ℚ) + 1) / 1000

/-- One row of the gap-candidate table built by
`analyze_probabilistic_knowledge_gaps`. -/
structure GapRecord where
  sourceCategory : Category
  sourceNode : String
  targetCategory : Category
  targetNode : String
  topologicalScore : Nat
  cooccurrenceScore : ℚ
  bridgeBonus : ℚ
  predictedLinkStrength : ℚ
deriving DecidableEq, Repr

/-- The dict appended for a retained candidate pair (co-occurrence score
and predicted strength are stored rounded to 3 decimals). -/
def mkGapRecord (g : Digraph) (M : CoocMatrix) (u : String) (du : NodeData)
    (v : String) (dv : NodeData) : GapRecord :=
  { sourceCategory := du.category
    sourceNode := u
    targetCategory := dv.category
    targetNode := v
    topologicalScore := topo_score g u v
    cooccurrenceScore := round3 (cooc_score M u v)
    bridgeBonus := bridge_bonus du.category dv.category
    predictedLinkStrength := round3 (predicted_link_strength g M du.category dv.category u v) }

/-- `nodes_by_cat`: the registry entries of one category whose concept
is a node of the directed graph
(`[n for n, d in node_info.items() if d['category'] == cat and n in G_directed]`,
kept with their data records). -/
def nodes_by_cat (info : NodeInfo) (g : Digraph) (c : Category) : List (String × NodeData) :=
  info.filter (fun p => decide (p.2.category = c ∧ p.1 ∈ g.nodes))

/-- `all_potential_links`: for every ordered category pair from
`combinations(CATEGORY_ORDER, 2)` and every concept pair drawn from the
corresponding buckets, score the pair if it is distinct, in the graph,
and unlinked in both directions, and retain it when the predicted
strength strictly exceeds the threshold `1.0`. -/
def all_potential_links (g : Digraph) (M : CoocMatrix) (info : NodeInfo) : List GapRecord :=
  (pairsTwo CATEGORY_ORDER).flatMap fun cc =>
    (nodes_by_cat info g cc.1).flatMap fun u =>
      (nodes_by_cat info g cc.2).filterMap fun v =>
        if u.1 = v.1 ∨ u.1 ∉ g.nodes ∨ v.1 ∉ g.nodes then none
        else if ¬ (u.1, v.1) ∈ g.edges ∧ ¬ (v.1, u.1) ∈ g.edges then
          (if 1 < predicted_link_strength g M u.2.category v.2.category u.1 v.1 then
            some (mkGapRecord g M u.1 u.2 v.1 v.2)
          else none)
        else none

/-- Descending insertion by predicted link strength (`sort_values(...,
ascending=False)`; order among equal strengths is not specified by the
pandas sort and no verified property depends on it). -/
def insertGapDesc (r : GapRecord) : List GapRecord → List GapRecord
  | [] => [r]
  | x :: xs =>
      if x.predictedLinkStrength < r.predictedLinkStrength then r :: x :: xs
      else x :: insertGapDesc r xs

/-- Sort gap records by descending predicted strength. -/
def sortGapsDesc : List GapRecord → List GapRecord
  | [] => []
  | x :: xs => insertGapDesc x (sortGapsDesc xs)

/-- `analyze_probabilistic_knowledge_gaps(G, M, node_info)`: `none` models
the skipped runs (`return None`) on an empty graph, an empty matrix, or
no retained candidates; otherwise the ranked candidate list. -/
def analyze_probabilistic_knowledge_gaps (g : Digraph) (M : CoocMatrix)
    (info : NodeInfo) : Option (List GapRecord) :=
  if g.nodes = [] ∨ M.isEmpty then none
  else
    let l := all_potential_links g M info
    if l = [] then none else some (sortGapsDesc l)

/-- A `networkx.Graph` (undirected, weighted) whose nodes arise solely
from `add_edge` calls, as in the trajectory synthesizer: an edge list of
`(u, v, weight)` triples, one per unordered pair. -/
structure WGraph where
  edges : List (String × String × ℚ)
deriving Repr

/-- Find the stored triple for the unordered pair `{u, v}`. -/
def WGraph.findEdge (g : WGraph) (u v : String) : Option (String × String × ℚ) :=
  g.edges.find? (fun e => decide ((e.1 = u ∧ e.2.1 = v) ∨ (e.1 = v ∧ e.2.1 = u)))

/-- `G.has_edge(u, v)` on the undirected graph. -/
def WGraph.hasEdge (g : WGraph) (u v : String) : Prop := (g.findEdge u v).isSome

instance (g : WGraph) (u v : String) : Decidable (g.hasEdge u v) := by
  unfold WGraph.hasEdge; infer_instance

/-- `G[u][v]['weight']` (defaulting to `0` where no edge exists; the
code only reads weights of existing edges). -/
def WGraph.weight (g : WGraph) (u v : String) : ℚ :=
  ((g.findEdge u v).map (·.2.2)).getD 0

/-- `G.has_node(u)`: `u` occurs as an endpoint of some edge. -/
def WGraph.hasNode (g : WGraph) (u : String) : Prop :=
  ∃ e ∈ g.edges, e.1 = u ∨ e.2.1 = u

instance (g : WGraph) (u : String) : Decidable (g.hasNode u) := by
  unfold WGraph.hasNode; infer_instance

/-- Neighbours of `u` in edge insertion order. -/
def WGraph.neighbors (g : WGraph) (u : String) : List String :=
  g.edges.filterMap (fun e =>
    if e.1 = u then some e.2.1 else if e.2.1 = u then some e.1 else none)

/-- The pruned co-occurrence graph `G_cooc_weighted`: for every pair of
matrix columns (`combinations(cooccurrence_matrix.columns, 2)`) that is
a valid distinct label pair, keep an edge iff its co-occurrence score
strictly exceeds `min_cooc_for_edge_in_path`, weighted by that score. -/
def prunedGraph (M : CoocMatrix) (minW : ℚ) : WGraph :=
  ⟨(pairsTwo M.cols).filterMap fun p =>
    if p.1 ∈ M.index ∧ p.2 ∈ M.cols ∧ p.1 ≠ p.2 ∧ minW < M.entry p.1 p.2 then
      some (p.1, p.2, M.entry p.1 p.2)
    else none⟩

/-- Depth-first enumeration of the simple paths from `cur` to `target`
using at most `fuel` further edges and avoiding `visited`
(`nx.all_simple_paths` with `cutoff`). -/
def simplePathsAux (g : WGraph) (target : String) :
    Nat → String → List String → List (List String)
  | 0, cur, _ => if cur = target then [[cur]] else []
  | Nat.succ f, cur, visited =>
      if cur = target then [[cur]]
      else
        ((g.neighbors cur).filter (fun n => decide (n ∉ visited))).flatMap
          (fun n => (simplePathsAux g target f n (visited ++ [n])).map (cur :: ·))

/-- `nx.all_simple_paths(G, source, target, cutoff)`: simple paths with
at most `cutoff` edges. -/
def all_simple_paths (g : WGraph) (source target : String) (cutoff : Nat) :
    List (List String) :=
  simplePathsAux g target cutoff source [source]

/-- Consecutive node pairs `(path[i], path[i+1])` of a path. -/
def consecPairs (p : List String) : List (String × String) := p.zip p.tail

/-- The per-edge accumulator of the path-scoring loop: collected edge
weights, explicit-link count, hierarchical-flow count. -/
structure StepAcc where
  coocScores : List ℚ
  explicitLinks : Nat
  hierScore : Nat
deriving DecidableEq, Repr

/-- One step of the hierarchical-flow test: both endpoint categories
exist, lie in `CATEGORY_ORDER`, and the target category's position is
equal or later. -/
def hier_step (info : NodeInfo) (u v : String) : Bool :=
  match infoGet info u, infoGet info v with
  | some du, some dv =>
      decide (du.category ∈ CATEGORY_ORDER ∧ dv.category ∈ CATEGORY_ORDER ∧
        catIdx du.category ≤ catIdx dv.category)
  | _, _ => false

/-- The scoring loop over the consecutive edges of a path: `none` models
the `valid_path = False; break` exit taken when an edge of the path is
missing from the pruned graph. -/
def score_steps (gd : Digraph) (gc : WGraph) (info : NodeInfo) :
    List (String × String) → Option StepAcc
  | [] => some ⟨[], 0, 0⟩
  | e :: rest =>
      if gc.hasEdge e.1 e.2 then
        match score_steps gd gc info rest with
        | none => none
        | some acc =>
            some ⟨gc.weight e.1 e.2 :: acc.coocScores,
                  (if (e.1, e.2) ∈ gd.edges then 1 else 0) + acc.explicitLinks,
                  (if hier_step info e.1 e.2 then 1 else 0) + acc.hierScore⟩
      else none

/-- The Python set `path_categories_set`: the loop inserts the category
of every step source plus, at the end, the category of the last node —
i.e. the known categories of all path nodes. -/
def path_categories (info : NodeInfo) (p : List String) : Finset Category :=
  (p.filterMap (fun n => (infoGet info n).map (·.category))).toFinset

/-- One row of the trajectory table. -/
structure PathRecord where
  pathNodes : List String
  pathStr : String
  score : ℚ
  pathLength : Nat
  avgCoocScore : ℚ
  numExplicitLinks : Nat
  hierarchicalFlowScore : Nat
  categorySpanScore : Nat
deriving DecidableEq, Repr

/-- Score one enumerated path (`none` models the `continue` on an
invalid path):
`final_score = avg_cooc*10 + explicit_links*5 + hierarchical*2 + span*1`. -/
def score_path (gd : Digraph) (gc : WGraph) (info : NodeInfo)
    (p : List String) : Option PathRecord :=
  match p with
  | [] => none
  | _ :: _ =>
      match score_steps gd gc info (consecPairs p) with
      | none => none
      | some acc =>
          let avg : ℚ :=
            if acc.coocScores = [] then 0 else acc.coocScores.sum / acc.coocScores.length
          let span : Nat :=
            if 3 ≤ (path_categories info p).card then (path_categories info p).card else 0
          some { pathNodes := p
                 pathStr := " -> ".intercalate p
                 score := avg * 10 + acc.explicitLinks * 5 + acc.hierScore * 2 + span * 1
                 pathLength := p.length
                 avgCoocScore := round3 avg
                 numExplicitLinks := acc.explicitLinks
                 hierarchicalFlowScore := acc.hierScore
                 categorySpanScore := span }

/-- The fallback row saved when no (valid) path was found: the two-node
path `[start, end]` with zero score and zero sub-scores. -/
def fallback_record (s t : String) : PathRecord :=
  { pathNodes := [s, t]
    pathStr := " -> ".intercalate [s, t]
    score := 0
    pathLength := 2
    avgCoocScore := 0
    numExplicitLinks := 0
    hierarchicalFlowScore := 0
    categorySpanScore := 0 }

/-- Descending insertion by combined score (`sort_values(by='score',
ascending=False)`; order among ties is unspecified by the pandas sort
and no verified property depends on it). -/
def insertPathDesc (r : PathRecord) : List PathRecord → List PathRecord
  | [] => [r]
  | x :: xs => if x.score < r.score then r :: x :: xs else x :: insertPathDesc r xs

/-- Sort path records by descending combined score. -/
def sortPathsDesc : List PathRecord → List PathRecord
  | [] => []
  | x :: xs => insertPathDesc x (sortPathsDesc xs)

/-- Observable outcome of `synthesize_and_plot_trajectory`: `error`
models the `ERROR: Start/End node missing` early return, `table`
the trajectory table written to CSV. -/
inductive TrajResult where
  | error : TrajResult
  | table : List PathRecord → TrajResult
deriving DecidableEq, Repr

/-- `synthesize_and_plot_trajectory`: guard on start/end membership in
the directed graph and registry; build the pruned co-occurrence graph;
if start or end is absent from it, save an *empty* table; otherwise
enumerate simple paths up to the hop bound, score them, and save the top
`top_n_paths_to_save` rows (or the zero-score fallback row if no path,
or no valid path, was found). -/
def synthesize_and_plot_trajectory (gd : Digraph) (M : CoocMatrix) (info : NodeInfo)
    (startId endId : String) (maxPathLen : Nat) (minCooc : ℚ) (topN : Nat) :
    TrajResult :=
  if ¬ (startId ∈ gd.nodes ∧ endId ∈ gd.nodes ∧
        (infoGet info startId).isSome ∧ (infoGet info endId).isSome) then
    .error
  else
    let gc := prunedGraph M minCooc
    if ¬ (gc.hasNode startId ∧ gc.hasNode endId) then
      .table []
    else
      let allFound := (all_simple_paths gc startId endId maxPathLen).filter
        (fun p => decide (2 ≤ p.length))
      if allFound = [] then .table ([fallback_record startId endId].take topN)
      else
        let scored := allFound.filterMap (score_path gd gc info)
        if scored = [] then .table ([fallback_record startId endId].take topN)
        else .table ((sortPathsDesc scored).take topN)

/-- The undirected projection `G_directed.to_undirected()`: same nodes,
edges merged regardless of direction. -/
structure UGraph where
  nodes : List String
  edges : List (String × String)
deriving DecidableEq, Repr

/-- `G.to_undirected()`. -/
def Digraph.toUndirected (g : Digraph) : UGraph :=
  ⟨g.nodes,
   g.edges.foldl
     (fun acc e => if e ∈ acc ∨ (e.2, e.1) ∈ acc then acc else acc ++ [e]) []⟩

/-- Neighbours in the undirected graph. -/
def UGraph.neighbors (g : UGraph) (u : String) : List String :=
  g.edges.filterMap (fun e =>
    if e.1 = u then some e.2 else if e.2 = u then some e.1 else none)

/-- Nodes reachable from the frontier within `fuel` expansion rounds. -/
def UGraph.reach (g : UGraph) : Nat → List String → List String
  | 0, frontier => frontier
  | Nat.succ f, frontier =>
      g.reach f ((frontier ++ frontier.flatMap g.neighbors).dedup)

/-- Whether `u` and `v` lie in the same connected component. -/
def UGraph.connected (g : UGraph) (u v : String) : Prop :=
  v ∈ g.reach g.nodes.length [u]

instance (g : UGraph) (u v : String) : Decidable (g.connected u v) := by
  unfold UGraph.connected; infer_instance

/-- Modelled from the spec: `community_louvain.best_partition(G, random_state)`
is an external library call whose source is not part of this repository.
The spec requires a seeded modularity-optimisation (Louvain-style)
partition that assigns every node a non-negative integer community id
and is deterministic for a fixed graph and seed.  It is modelled as a
pure function of the undirected graph and the seed — here, grouping
nodes by connected component (a partition every modularity optimisation
refines), with components numbered deterministically from the node
order; the fully deterministic procedure consults the seed for nothing
further. -/
def best_partition (g : UGraph) (seed : Nat) : List (String × Nat) :=
  let reps := (g.nodes.map (fun n => (g.nodes.find? (fun m => decide (g.connected m n))).getD n)).dedup
  let _ := seed
  g.nodes.map (fun n =>
    (n, reps.indexOf ((g.nodes.find? (fun m => decide (g.connected m n))).getD n)))

/-- `analyze_centrality_and_communities(G, ...)`: `none` models the two
skipped returns (empty graph; empty undirected projection), `some`
the community partition attached to the graph.  The numeric centrality
annotations (degree, betweenness, PageRank) and all plotting are elided:
no verified claim mentions them. -/
def analyze_centrality_and_communities (g : Digraph) (seed : Nat) :
    Option (List (String × Nat)) :=
  if g.nodes = [] then none
  else
    let gu := g.toUndirected
    if gu.nodes = [] then none
    else some (best_partition gu seed)

/-- One run of the community-detection stage.  The run index stands for
ambient process state (scheduling, time, memory layout) that could
differ between two executions; the stage reads only the graph and the
seed, never the run index. -/
def communityDetectionRun (runIdx : Nat) (g : Digraph) (seed : Nat) :
    Option (List (String × Nat)) :=
  let _ := runIdx
  analyze_centrality_and_communities g seed

/-- Insertion into a lexicographically sorted list of strings. -/
def insertStrLe (x : String) : List String → List String
  | [] => [x]
  | y :: ys => if x ≤ y then x :: y :: ys else y :: insertStrLe x ys

/-- Python `sorted` on strings (lexicographic by code point). -/
def sortStrings : List String → List String
  | [] => []
  | x :: xs => insertStrLe x (sortStrings xs)

/-- `sorted(doc_links.keys())`: the sorted filenames of the category
documents (`dedup` models the dict keying; a directory listing has
unique names anyway). -/
def eligibleDocNames (files : List Doc) : List String :=
  sortStrings ((files.filter (fun d => (NODE_CATEGORIES d.filename).isSome)).map (·.filename)).dedup

/-- `doc_links[fname]`: all link targets of the named document. -/
def docTargets (files : List Doc) (fname : String) : List String :=
  match files.find? (fun d => d.filename = fname) with
  | some d => d.allLinkTargets
  | none => []

/-- `abundance_matrix.loc[c, fname]`: how often concept `c` is referenced
as a link target inside document `fname` (`value_counts`). -/
def abundance (files : List Doc) (c : String) (fname : String) : Nat :=
  (docTargets files fname).count c

/-- The abundance row of concept `c` across the sorted documents. -/
def abundanceVec (files : List Doc) (c : String) : List Nat :=
  (eligibleDocNames files).map (abundance files c)

/-- `abundance_matrix.sum(axis=1)` for one concept. -/
def totalAbundance (files : List Doc) (c : String) : Nat :=
  (abundanceVec files c).sum

/-- `sorted(node_info.keys())`: the sorted row labels of the abundance
matrix. -/
def cooccIndex (info : NodeInfo) : List String :=
  sortStrings (info.map (·.1))

/-- `abundance_matrix.loc[abundance_matrix.sum(axis=1) > 0]`: the
concepts retained in the co-occurrence matrix. -/
def retainedConcepts (files : List Doc) (info : NodeInfo) : List String :=
  (cooccIndex info).filter (fun c => decide (0 < totalAbundance files c))

/-- Average rank (ties share the mean of their positions), as used by the
Spearman correlation: for a value `a` of the vector `l`,
`#{b < a} + (#{b = a} + 1)/2`. -/
def rankOf (l : List Nat) (a : Nat) : ℚ :=
  (l.countP (fun b => decide (b < a)) : ℚ) + ((l.countP (fun b => decide (b = a)) : ℚ) + 1) / 2

/-- The rank vector of an abundance row. -/
def rankVector (l : List Nat) : List ℚ := l.map (rankOf l)

/-- Mean of a list of reals (`0` for the empty list, via `x / 0 = 0`). -/
noncomputable def listMean (l : List ℝ) : ℝ := l.sum / l.length

/-- The vector centred by its mean. -/
noncomputable def centeredVec (l : List ℝ) : List ℝ := l.map (fun x => x - listMean l)

/-- Sum of squared deviations from the mean. -/
noncomputable def sqDevSum (l : List ℝ) : ℝ := ((centeredVec l).map (fun t => t ^ 2)).sum

/-- Pearson correlation coefficient.  A pandas `NaN` (zero variance in
either vector) corresponds to a zero denominator, and the resulting
entry is `0` — exactly the effect of the `.fillna(0)` in the source,
since in Lean `x / 0 = 0`. -/
noncomputable def pearson (x y : List ℝ) : ℝ :=
  (List.zipWith (· * ·) (centeredVec x) (centeredVec y)).sum /
    Real.sqrt (sqDevSum x * sqDevSum y)

/-- Spearman rank correlation of two abundance rows: Pearson correlation
of their rank vectors. -/
noncomputable def spearman (x y : List Nat) : ℝ :=
  pearson ((rankVector x).map (fun q => (q : ℝ))) ((rankVector y).map (fun q => (q : ℝ)))

/-- The concept×concept correlation matrix produced by
`build_cooccurrence_data`: row and column labels are the retained
concepts; the entry at `(u, v)` is the Spearman correlation of their
abundance rows, with undefined correlations filled with `0`. -/
structure SpearmanMatrix where
  concepts : List String
  entry : String → String → ℝ

/-- `build_cooccurrence_data(files, node_info)`:
`abundance_matrix.T.corr(method='spearman').fillna(0)`. -/
noncomputable def build_cooccurrence_data (files : List Doc) (info : NodeInfo) :
    SpearmanMatrix :=
  ⟨retainedConcepts files info,
   fun u v => spearman (abundanceVec files u) (abundanceVec files v)⟩

/-!
## Concrete test corpora

Small corpora and matrices used to instantiate the verified statements
on explicit inputs. -/

/-- An applications document defining `beta` and `m2`, with no outgoing
links. -/
def appsDoc : Doc := ⟨"applications.md", [], [("beta", []), ("m2", [])]⟩

/-- A theory document defining `alpha`, which links to `beta`. -/
def theoDoc : Doc := ⟨"theoretical.md", [], [("alpha", [("applications.md", "beta")])]⟩

/-- A materials document defining `m1`, with no outgoing links. -/
def matsDoc : Doc := ⟨"materials.md", [], [("m1", [])]⟩

/-- A three-document corpus. -/
def wFiles : List Doc := [appsDoc, theoDoc, matsDoc]

/-- Its node registry: `beta`, `m2` (Application), `alpha` (Theory),
`m1` (Material). -/
def wInfo : NodeInfo := get_node_metadata wFiles

/-- Its directed link graph: the single edge `alpha → beta`. -/
def wG : Digraph := build_explicit_link_graph wFiles wInfo

/-- A co-occurrence matrix over the corpus concepts giving the pair
`{m1, m2}` score `1/2` and every other pair `0`. -/
def wM : CoocMatrix :=
  ⟨["alpha", "beta", "m1", "m2"], ["alpha", "beta", "m1", "m2"],
   fun u v =>
     if (u = "m1" ∧ v = "m2") ∨ (u = "m2" ∧ v = "m1") then 1/2 else 0⟩

/-- A co-occurrence matrix whose labels omit `alpha` (for the
missing-entry default). -/
def wM10 : CoocMatrix :=
  ⟨["m1", "m2"], ["m1", "m2"],
   fun u v =>
     if (u = "m1" ∧ v = "m2") ∨ (u = "m2" ∧ v = "m1") then 1/2 else 0⟩

/-- An all-zero co-occurrence matrix: its pruned graph (at threshold
`3/10`) has no nodes at all. -/
def cexM : CoocMatrix := ⟨["alpha", "m2"], ["alpha", "m2"], fun _ _ => 0⟩

/-- A co-occurrence matrix whose pruned graph (at threshold `3/10`)
carries the chain `alpha — beta — m2`. -/
def wM4 : CoocMatrix :=
  ⟨["alpha", "beta", "m1", "m2"], ["alpha", "beta", "m1", "m2"],
   fun u v =>
     if (u = "alpha" ∧ v = "beta") ∨ (u = "beta" ∧ v = "alpha") then 1/2
     else if (u = "beta" ∧ v = "m2") ∨ (u = "m2" ∧ v = "beta") then 2/5
     else 0⟩

/-- A two-document corpus in which `beta` and `m1` reference each other,
so both have nonzero total abundance. -/
def w5Files : List Doc :=
  [⟨"applications.md", [], [("beta", [("materials.md", "m1")])]⟩,
   ⟨"materials.md", [], [("m1", [("applications.md", "beta")])]⟩]

/-- The registry of the two-document corpus. -/
def w5Info : NodeInfo := get_node_metadata w5Files

/-- A corpus in which the concept id `dup` is defined by two documents:
first by `applications.md`, then again by `materials.md`. -/
def w9Files : List Doc :=
  [⟨"applications.md", [], [("dup", [])]⟩,
   ⟨"materials.md", [], [("dup", []), ("other", [])]⟩]

/-!
## Verified properties
-/

/-- C8: on empty or degenerate inputs — an empty directed link graph, or
an empty co-occurrence matrix — the centrality/community engine and the
probabilistic gap scorer return their skipped signal (`none`) instead of
raising. -/
theorem C8_degenerate_inputs_skip :
    (∀ (g : Digraph) (seed : Nat),
      g.nodes = [] → analyze_centrality_and_communities g seed = none) ∧
    (∀ (g : Digraph) (M : CoocMatrix) (info : NodeInfo),
      g.nodes = [] ∨ M.isEmpty → analyze_probabilistic_knowledge_gaps g M info = none) := by
  constructor
  · intro g seed h
    unfold analyze_centrality_and_communities
    rw [if_pos h]
  · intro g M info h
    unfold analyze_probabilistic_knowledge_gaps
    rw [if_pos h]

/-- Witness for C8 at the empty graph and the empty matrix. -/
theorem C8_witness :
    analyze_centrality_and_communities ⟨[], []⟩ 42 = none ∧
    analyze_probabilistic_knowledge_gaps ⟨[], []⟩ ⟨[], [], fun _ _ => 0⟩ [] = none :=
  ⟨C8_degenerate_inputs_skip.1 ⟨[], []⟩ 42 rfl,
   C8_degenerate_inputs_skip.2 ⟨[], []⟩ ⟨[], [], fun _ _ => 0⟩ [] (Or.inl rfl)⟩

/-- C7: community detection is deterministic — two runs of the stage on
the same directed graph with the same seed produce the same partition,
and a produced partition assigns every node of the graph a (non-negative
integer, by the `Nat` codomain) community id. -/
theorem C7_community_detection_deterministic :
    (∀ (r1 r2 : Nat) (g : Digraph) (seed : Nat),
      communityDetectionRun r1 g seed = communityDetectionRun r2 g seed) ∧
    (∀ (r : Nat) (g : Digraph) (seed : Nat) (part : List (String × Nat)),
      communityDetectionRun r g seed = some part →
      ∀ n ∈ g.nodes, ∃ id : Nat, (n, id) ∈ part) := by
  constructor
  · intro r1 r2 g seed
    rfl
  · intro r g seed part hrun n hn
    unfold communityDetectionRun analyze_centrality_and_communities at hrun
    by_cases h1 : g.nodes = []
    · rw [if_pos h1] at hrun
      exact absurd hrun (by simp)
    · rw [if_neg h1] at hrun
      simp only [] at hrun
      by_cases h2 : (g.toUndirected).nodes = []
      · rw [if_pos h2] at hrun
        exact absurd hrun (by simp)
      · rw [if_neg h2] at hrun
        have hpart : part = best_partition g.toUndirected seed :=
          (Option.some_injective _ hrun.symm)
        subst hpart
        have hn2 : n ∈ g.toUndirected.nodes := by
          simpa [Digraph.toUndirected] using hn
        exact ⟨_, List.mem_map_of_mem _ hn2⟩

/-- Witness for C7: a produced partition on the concrete corpus covers
the node `alpha`. -/
theorem C7_witness :
    ∃ id : Nat, ("alpha", id) ∈ best_partition (Digraph.toUndirected wG) 42 :=
  C7_community_detection_deterministic.2 0 wG 42
    (best_partition (Digraph.toUndirected wG) 42)
    (by with_unfolding_all decide) ("alpha") (by with_unfolding_all decide)

/-- C2 counterexample: on a concrete query whose start node is absent
from the pruned co-occurrence graph, the synthesizer returns the empty
trajectory table — not, as claimed, the single fallback path
`[start, end]` with zero scores. -/
theorem C2_counterexample :
    synthesize_and_plot_trajectory wG cexM wInfo ("alpha") ("m2") 4 (3/10) 20 =
      TrajResult.table [] ∧
    TrajResult.table ([] : List PathRecord) ≠
      TrajResult.table [fallback_record ("alpha") ("m2")] := by
  with_unfolding_all decide

/-- C2 (amended): for every trajectory query that passes the start/end
registry guard but whose start or end concept is absent from the pruned
co-occurrence graph, the synthesizer returns the *empty* trajectory
table, and does not treat this as an error.  (The single fallback path
`[start, end]` with zero scores arises in the different situation where
both endpoints are present in the pruned graph but no valid path is
found.) -/
theorem C2_amended_absent_endpoint_empty_table
    (gd : Digraph) (M : CoocMatrix) (info : NodeInfo) (s t : String)
    (maxLen topN : Nat) (minW : ℚ)
    (hs : s ∈ gd.nodes) (ht : t ∈ gd.nodes)
    (hsi : (infoGet info s).isSome) (hti : (infoGet info t).isSome)
    (habs : ¬ ((prunedGraph M minW).hasNode s ∧ (prunedGraph M minW).hasNode t)) :
    synthesize_and_plot_trajectory gd M info s t maxLen minW topN = .table [] ∧
    synthesize_and_plot_trajectory gd M info s t maxLen minW topN ≠ .error := by
  have hcond : s ∈ gd.nodes ∧ t ∈ gd.nodes ∧
      (infoGet info s).isSome ∧ (infoGet info t).isSome := ⟨hs, ht, hsi, hti⟩
  have hmain : synthesize_and_plot_trajectory gd M info s t maxLen minW topN = .table [] := by
    unfold synthesize_and_plot_trajectory
    rw [if_neg (not_not_intro hcond)]
    simp only []
    rw [if_pos habs]
  exact ⟨hmain, by rw [hmain]; exact fun h => TrajResult.noConfusion h⟩

/-- Witness for the amended C2 on the concrete corpus. -/
theorem C2_amended_witness :
    synthesize_and_plot_trajectory wG cexM wInfo ("alpha") ("m2") 4 (3/10) 20 =
      .table [] ∧
    synthesize_and_plot_trajectory wG cexM wInfo ("alpha") ("m2") 4 (3/10) 20 ≠
      .error :=
  C2_amended_absent_endpoint_empty_table wG cexM wInfo ("alpha") ("m2") 4 20 (3/10)
    (by with_unfolding_all decide) (by with_unfolding_all decide)
    (by with_unfolding_all decide) (by with_unfolding_all decide)
    (by with_unfolding_all decide)

/-- Dict lookup distributes over append: the left bindings win. -/
theorem infoGet_append (l1 l2 : NodeInfo) (u : String) :
    infoGet (l1 ++ l2) u =
      match infoGet l1 u with
      | some v => some v
      | none => infoGet l2 u := by
  induction l1 with
  | nil => rfl
  | cons p rest ih =>
      obtain ⟨k, v⟩ := p
      by_cases h : k = u
      · simp [infoGet, h]
      · simp [infoGet, h, ih]

/-- Effect of one document's header loop on a lookup: existing bindings
win; otherwise the document's data is recorded iff the id is among its
headers. -/
theorem infoGet_insertHeader_foldl (data : NodeData) (hs : List String)
    (acc : NodeInfo) (id : String) :
    infoGet (hs.foldl (insertHeader data) acc) id =
      match infoGet acc id with
      | some v => some v
      | none => if id ∈ hs then some data else none := by
  induction hs generalizing acc with
  | nil => cases h : infoGet acc id <;> simp [h]
  | cons h hs ih =>
      rw [List.foldl_cons, ih]
      unfold insertHeader
      by_cases hmem : (infoGet acc h).isSome
      · rw [if_pos hmem]
        cases hacc : infoGet acc id with
        | some v => simp
        | none =>
            by_cases hid : id = h
            · subst hid
              rw [hacc] at hmem
              simp at hmem
            · simp [List.mem_cons, hid]
      · rw [if_neg hmem]
        rw [infoGet_append]
        cases hacc : infoGet acc id with
        | some v => simp
        | none =>
            by_cases hid : h = id
            · subst hid
              simp [infoGet, List.mem_cons]
            · have hid2 : ¬ id = h := fun e => hid e.symm
              simp [infoGet, hid, hid2, List.mem_cons]

/-- Effect of the whole metadata fold on a lookup: existing bindings win;
otherwise the first defining document determines the data. -/
theorem infoGet_processDoc_foldl (files : List Doc) (acc : NodeInfo) (id : String) :
    infoGet (files.foldl processDoc acc) id =
      match infoGet acc id with
      | some v => some v
      | none =>
          match first_defining_doc files id with
          | some d => NODE_CATEGORIES d.filename
          | none => none := by
  induction files generalizing acc with
  | nil => cases h : infoGet acc id <;> simp [first_defining_doc, h]
  | cons d files ih =>
      rw [List.foldl_cons, ih]
      unfold first_defining_doc
      cases hcat : NODE_CATEGORIES d.filename with
      | none =>
          have hpred : ¬ ((NODE_CATEGORIES d.filename).isSome ∧ id ∈ d.headers) := by
            simp [hcat]
          rw [List.find?_cons_of_neg _ (by simpa using hpred)]
          unfold processDoc
          rw [hcat]
      | some data =>
          unfold processDoc
          rw [hcat, infoGet_insertHeader_foldl]
          by_cases hmem : id ∈ d.headers
          · rw [List.find?_cons_of_pos _ (by simp [hcat, hmem])]
            cases hacc : infoGet acc id <;> simp [hmem, hcat]
          · rw [List.find?_cons_of_neg _ (by simp [hcat, hmem])]
            cases hacc : infoGet acc id <;> simp [hmem]

/-- C9: in the metadata extractor, the first defining occurrence of a
concept id across the documents (in processing order) determines its
category and color; later duplicate definitions are ignored without
error.  The registry entry of an id equals the `NODE_CATEGORIES` data of
the first category document whose headers contain the id, and is absent
exactly when no such document exists. -/
theorem C9_first_definition_wins (files : List Doc) (id : String) :
    (∀ d, first_defining_doc files id = some d →
      infoGet (get_node_metadata files) id = NODE_CATEGORIES d.filename) ∧
    (first_defining_doc files id = none →
      infoGet (get_node_metadata files) id = none) := by
  have h := infoGet_processDoc_foldl files [] id
  have h0 : infoGet ([] : NodeInfo) id = none := rfl
  rw [h0] at h
  constructor
  · intro d hd
    rw [hd] at h
    simpa [get_node_metadata] using h
  · intro hd
    rw [hd] at h
    simpa [get_node_metadata] using h

/-- Witness for C9: `dup` is defined by `applications.md` first and by
`materials.md` later; the registry keeps the `applications.md` data. -/
theorem C9_witness :
    first_defining_doc w9Files ("dup") = some ⟨"applications.md", [], [("dup", [])]⟩ ∧
    infoGet (get_node_metadata w9Files) ("dup") = NODE_CATEGORIES ("applications.md") :=
  ⟨by with_unfolding_all decide,
   (C9_first_definition_wins w9Files ("dup")).1 ⟨"applications.md", [], [("dup", [])]⟩
     (by with_unfolding_all decide)⟩

/-- Membership in the nodes of `add_node`. -/
theorem add_node_mem (g : Digraph) (n m : String) :
    m ∈ (g.add_node n).nodes ↔ m = n ∨ m ∈ g.nodes := by
  unfold Digraph.add_node
  by_cases h : n ∈ g.nodes
  · rw [if_pos h]
    exact ⟨Or.inr, fun o => o.elim (fun e => e ▸ h) id⟩
  · rw [if_neg h]
    simp [or_comm]

/-- `add_node` never touches the edge list. -/
theorem add_node_edges (g : Digraph) (n : String) : (g.add_node n).edges = g.edges := by
  unfold Digraph.add_node
  split <;> rfl

/-- `add_node` of a present node is the identity. -/
theorem add_node_of_mem {g : Digraph} {n : String} (h : n ∈ g.nodes) :
    g.add_node n = g := by
  unfold Digraph.add_node
  rw [if_pos h]

/-- `add_edge` between present endpoints: node list unchanged, edge
membership extended by exactly `(u, v)`, nodup preserved. -/
theorem add_edge_spec (g : Digraph) (u v : String) (hu : u ∈ g.nodes) (hv : v ∈ g.nodes) :
    (g.add_edge u v).nodes = g.nodes ∧
    (∀ e, e ∈ (g.add_edge u v).edges ↔ e = (u, v) ∨ e ∈ g.edges) ∧
    (g.edges.Nodup → (g.add_edge u v).edges.Nodup) := by
  unfold Digraph.add_edge
  simp only [add_node_of_mem hu, add_node_of_mem hv]
  by_cases h : (u, v) ∈ g.edges
  · rw [if_pos h]
    exact ⟨rfl, fun e => ⟨Or.inr, fun o => o.elim (fun e2 => e2 ▸ h) id⟩, id⟩
  · rw [if_neg h]
    refine ⟨rfl, fun e => by simp [or_comm], fun hn => ?_⟩
    simp only [List.nodup_append, List.nodup_cons, List.not_mem_nil, not_false_iff,
      List.nodup_nil, and_true, true_and]
    exact ⟨hn, fun x hx e2 => h ((List.mem_singleton.mp e2) ▸ hx)⟩

/-- Folding one section's links preserves the node list, edge endpoints
staying in the node list, and edge nodup. -/
theorem add_section_links_spec (links : List (String × String)) (src : String)
    (g : Digraph) (hsrc : src ∈ g.nodes)
    (hend : ∀ e ∈ g.edges, e.1 ∈ g.nodes ∧ e.2 ∈ g.nodes)
    (hnd : g.edges.Nodup) :
    (add_section_links g src links).nodes = g.nodes ∧
    (∀ e ∈ (add_section_links g src links).edges, e.1 ∈ g.nodes ∧ e.2 ∈ g.nodes) ∧
    (add_section_links g src links).edges.Nodup := by
  induction links generalizing g with
  | nil => exact ⟨rfl, hend, hnd⟩
  | cons l ls ih =>
      have hstep : add_section_links g src (l :: ls) =
          add_section_links (if l.2 ∈ g.nodes then g.add_edge src l.2 else g) src ls := rfl
      rw [hstep]
      by_cases h : l.2 ∈ g.nodes
      · rw [if_pos h]
        obtain ⟨hn, he, hd⟩ := add_edge_spec g src l.2 hsrc h
        have hend2 : ∀ e ∈ (g.add_edge src l.2).edges,
            e.1 ∈ (g.add_edge src l.2).nodes ∧ e.2 ∈ (g.add_edge src l.2).nodes := by
          intro e hee
          rw [hn]
          rcases (he e).mp hee with h1 | h1
          · rw [h1]
            exact ⟨hsrc, h⟩
          · exact hend e h1
        obtain ⟨hn2, he2, hd2⟩ :=
          ih (g.add_edge src l.2) (by rw [hn]; exact hsrc) hend2 (hd hnd)
        refine ⟨by rw [hn2, hn], ?_, hd2⟩
        intro e hee
        have h3 := he2 e hee
        rw [hn] at h3
        exact h3
      · rw [if_neg h]
        exact ih g hsrc hend hnd

/-- Folding a document's sections preserves the same invariants. -/
theorem sections_fold_spec (ss : List (String × List (String × String)))
    (g : Digraph)
    (hend : ∀ e ∈ g.edges, e.1 ∈ g.nodes ∧ e.2 ∈ g.nodes)
    (hnd : g.edges.Nodup) :
    (ss.foldl (fun g s => if s.1 ∈ g.nodes then add_section_links g s.1 s.2 else g) g).nodes
      = g.nodes ∧
    (∀ e ∈ (ss.foldl (fun g s => if s.1 ∈ g.nodes then add_section_links g s.1 s.2 else g) g).edges,
      e.1 ∈ g.nodes ∧ e.2 ∈ g.nodes) ∧
    (ss.foldl (fun g s => if s.1 ∈ g.nodes then add_section_links g s.1 s.2 else g) g).edges.Nodup := by
  induction ss generalizing g with
  | nil => exact ⟨rfl, hend, hnd⟩
  | cons s ss ih =>
      rw [List.foldl_cons]
      by_cases h : s.1 ∈ g.nodes
      · rw [if_pos h]
        obtain ⟨hn, he, hd⟩ := add_section_links_spec s.2 s.1 g h hend hnd
        have hend2 : ∀ e ∈ (add_section_links g s.1 s.2).edges,
            e.1 ∈ (add_section_links g s.1 s.2).nodes ∧
            e.2 ∈ (add_section_links g s.1 s.2).nodes := by
          intro e hee
          rw [hn]
          exact he e hee
        obtain ⟨hn2, he2, hd2⟩ := ih (add_section_links g s.1 s.2) hend2 hd
        refine ⟨by rw [hn2, hn], ?_, hd2⟩
        intro e hee
        have h3 := he2 e hee
        rw [hn] at h3
        exact h3
      · rw [if_neg h]
        exact ih g hend hnd

/-- Adding one document's edges preserves the same invariants. -/
theorem add_doc_edges_spec (d : Doc) (g : Digraph)
    (hend : ∀ e ∈ g.edges, e.1 ∈ g.nodes ∧ e.2 ∈ g.nodes)
    (hnd : g.edges.Nodup) :
    (add_doc_edges g d).nodes = g.nodes ∧
    (∀ e ∈ (add_doc_edges g d).edges, e.1 ∈ g.nodes ∧ e.2 ∈ g.nodes) ∧
    (add_doc_edges g d).edges.Nodup := by
  unfold add_doc_edges
  by_cases h : (NODE_CATEGORIES d.filename).isSome
  · rw [if_pos h]
    exact sections_fold_spec d.sections g hend hnd
  · rw [if_neg h]
    exact ⟨rfl, hend, hnd⟩

/-- Folding all documents preserves the same invariants. -/
theorem docs_fold_spec (files : List Doc) (g : Digraph)
    (hend : ∀ e ∈ g.edges, e.1 ∈ g.nodes ∧ e.2 ∈ g.nodes)
    (hnd : g.edges.Nodup) :
    (files.foldl add_doc_edges g).nodes = g.nodes ∧
    (∀ e ∈ (files.foldl add_doc_edges g).edges, e.1 ∈ g.nodes ∧ e.2 ∈ g.nodes) ∧
    (files.foldl add_doc_edges g).edges.Nodup := by
  induction files generalizing g with
  | nil => exact ⟨rfl, hend, hnd⟩
  | cons d ds ih =>
      rw [List.foldl_cons]
      obtain ⟨hn, he, hd⟩ := add_doc_edges_spec d g hend hnd
      have hend2 : ∀ e ∈ (add_doc_edges g d).edges,
          e.1 ∈ (add_doc_edges g d).nodes ∧ e.2 ∈ (add_doc_edges g d).nodes := by
        intro e hee
        rw [hn]
        exact he e hee
      obtain ⟨hn2, he2, hd2⟩ := ih (add_doc_edges g d) hend2 hd
      refine ⟨by rw [hn2, hn], ?_, hd2⟩
      intro e hee
      have h3 := he2 e hee
      rw [hn] at h3
      exact h3

/-- Membership in the node list built from the registry. -/
theorem foldl_add_node_mem (l : List (String × NodeData)) (g : Digraph) (n : String) :
    n ∈ (l.foldl (fun g p => g.add_node p.1) g).nodes ↔
      n ∈ g.nodes ∨ n ∈ l.map Prod.fst := by
  induction l generalizing g with
  | nil => simp
  | cons p ps ih =>
      rw [List.foldl_cons, ih, add_node_mem]
      simp
      tauto

/-- The registry fold contributes no edges. -/
theorem foldl_add_node_edges (l : List (String × NodeData)) (g : Digraph) :
    (l.foldl (fun g p => g.add_node p.1) g).edges = g.edges := by
  induction l generalizing g with
  | nil => rfl
  | cons p ps ih =>
      rw [List.foldl_cons, ih, add_node_edges]

/-- C6: the directed link graph has exactly the registry keys as its node
set; every edge connects two registry concepts (dangling references are
dropped silently); the edge set is deduplicated (the graph is simple). -/
theorem C6_link_graph_nodes_edges (files : List Doc) (info : NodeInfo) :
    (∀ n, n ∈ (build_explicit_link_graph files info).nodes ↔ n ∈ info.map Prod.fst) ∧
    (∀ e ∈ (build_explicit_link_graph files info).edges,
      e.1 ∈ info.map Prod.fst ∧ e.2 ∈ info.map Prod.fst) ∧
    (build_explicit_link_graph files info).edges.Nodup := by
  unfold build_explicit_link_graph
  have hnodes0 : ∀ n,
      n ∈ (info.foldl (fun g p => g.add_node p.1) (⟨[], []⟩ : Digraph)).nodes ↔
        n ∈ info.map Prod.fst := by
    intro n
    rw [foldl_add_node_mem]
    simp [show (Digraph.mk [] []).nodes = [] from rfl]
  have hedges0 : (info.foldl (fun g p => g.add_node p.1) (⟨[], []⟩ : Digraph)).edges = [] :=
    foldl_add_node_edges info ⟨[], []⟩
  obtain ⟨hn, he, hd⟩ :=
    docs_fold_spec files (info.foldl (fun g p => g.add_node p.1) (⟨[], []⟩ : Digraph))
      (by rw [hedges0]; intro e hee; cases hee) (by rw [hedges0]; exact List.nodup_nil)
  refine ⟨?_, ?_, hd⟩
  · intro n
    rw [hn]
    exact hnodes0 n
  · intro e hee
    obtain ⟨h1, h2⟩ := he e hee
    exact ⟨(hnodes0 e.1).mp h1, (hnodes0 e.2).mp h2⟩

/-- Witness for C6 on the concrete corpus: the node set is the registry
keys, and the single edge `alpha → beta` joins registry concepts. -/
theorem C6_witness :
    ("alpha", "beta") ∈ (build_explicit_link_graph wFiles wInfo).edges ∧
    (("alpha" : String) ∈ (build_explicit_link_graph wFiles wInfo).nodes ↔
      "alpha" ∈ wInfo.map Prod.fst) ∧
    ("alpha" ∈ wInfo.map Prod.fst ∧ "beta" ∈ wInfo.map Prod.fst) :=
  ⟨by with_unfolding_all decide,
   (C6_link_graph_nodes_edges wFiles wInfo).1 ("alpha"),
   (C6_link_graph_nodes_edges wFiles wInfo).2.1 ("alpha", "beta")
     (by with_unfolding_all decide)⟩

/-- The ordered category pairs produced by `combinations(CATEGORY_ORDER, 2)`
have distinct components. -/
theorem pairsTwo_CATEGORY_ORDER_ne : ∀ cc ∈ pairsTwo CATEGORY_ORDER, cc.1 ≠ cc.2 := by
  decide

/-- Those pairs are ordered by position in `CATEGORY_ORDER`. -/
theorem pairsTwo_CATEGORY_ORDER_idx :
    ∀ cc ∈ pairsTwo CATEGORY_ORDER, catIdx cc.1 < catIdx cc.2 := by
  decide

/-- Conversely, every position-ordered category pair is produced. -/
theorem mem_pairsTwo_CATEGORY_ORDER :
    ∀ c1 c2 : Category, catIdx c1 < catIdx c2 → (c1, c2) ∈ pairsTwo CATEGORY_ORDER := by
  decide

/-- A dict (association list with nodup keys) binds each key to at most
one value. -/
theorem infoMem_unique {info : NodeInfo} (hnd : (info.map Prod.fst).Nodup)
    {u : String} {a b : NodeData} (ha : (u, a) ∈ info) (hb : (u, b) ∈ info) : a = b := by
  induction info with
  | nil => cases ha
  | cons p rest ih =>
      rw [List.map_cons, List.nodup_cons] at hnd
      rcases List.mem_cons.mp ha with ha1 | ha1 <;> rcases List.mem_cons.mp hb with hb1 | hb1
      · rw [← hb1] at ha1
        exact congrArg Prod.snd ha1
      · exfalso
        apply hnd.1
        have h2 : u ∈ List.map Prod.fst rest := by
          simpa using List.mem_map_of_mem Prod.fst hb1
        rw [← ha1]
        simpa using h2
      · exfalso
        apply hnd.1
        have h2 : u ∈ List.map Prod.fst rest := by
          simpa using List.mem_map_of_mem Prod.fst ha1
        rw [← hb1]
        simpa using h2
      · exact ih hnd.2 ha1 hb1

/-- Membership in a category bucket. -/
theorem mem_nodes_by_cat {info : NodeInfo} {g : Digraph} {c : Category}
    {p : String × NodeData} :
    p ∈ nodes_by_cat info g c ↔ p ∈ info ∧ p.2.category = c ∧ p.1 ∈ g.nodes := by
  unfold nodes_by_cat
  rw [List.mem_filter]
  simp

/-- Production characterization of the gap-candidate list: a record is in
it exactly when some ordered category pair and bucket pair produces it
through all three guards. -/
theorem mem_all_potential_links (g : Digraph) (M : CoocMatrix) (info : NodeInfo)
    (r : GapRecord) :
    r ∈ all_potential_links g M info ↔
      ∃ cc ∈ pairsTwo CATEGORY_ORDER, ∃ a ∈ nodes_by_cat info g cc.1,
        ∃ b ∈ nodes_by_cat info g cc.2,
          ¬ (a.1 = b.1 ∨ a.1 ∉ g.nodes ∨ b.1 ∉ g.nodes) ∧
          ((a.1, b.1) ∉ g.edges ∧ (b.1, a.1) ∉ g.edges) ∧
          1 < predicted_link_strength g M a.2.category b.2.category a.1 b.1 ∧
          r = mkGapRecord g M a.1 a.2 b.1 b.2 := by
  unfold all_potential_links
  simp only [List.mem_flatMap, List.mem_filterMap]
  constructor
  · rintro ⟨cc, hcc, a, ha, b, hb, hif⟩
    by_cases h1 : a.1 = b.1 ∨ a.1 ∉ g.nodes ∨ b.1 ∉ g.nodes
    · rw [if_pos h1] at hif
      cases hif
    · rw [if_neg h1] at hif
      by_cases h2 : ¬ (a.1, b.1) ∈ g.edges ∧ ¬ (b.1, a.1) ∈ g.edges
      · rw [if_pos h2] at hif
        by_cases h3 : 1 < predicted_link_strength g M a.2.category b.2.category a.1 b.1
        · rw [if_pos h3] at hif
          exact ⟨cc, hcc, a, ha, b, hb, h1, h2, h3, (Option.some_injective _ hif).symm⟩
        · rw [if_neg h3] at hif
          cases hif
      · rw [if_neg h2] at hif
        cases hif
  · rintro ⟨cc, hcc, a, ha, b, hb, h1, h2, h3, hr⟩
    exact ⟨cc, hcc, a, ha, b, hb, by rw [if_neg h1, if_pos h2, if_pos h3, hr]⟩

/-- C3: every record of the gap-candidate list has no edge between its
source and target in either direction of the directed link graph, and
its source and target categories differ. -/
theorem C3_gap_candidate_invariant (g : Digraph) (M : CoocMatrix) (info : NodeInfo) :
    ∀ r ∈ all_potential_links g M info,
      (r.sourceNode, r.targetNode) ∉ g.edges ∧
      (r.targetNode, r.sourceNode) ∉ g.edges ∧
      r.sourceCategory ≠ r.targetCategory := by
  intro r hr
  rw [mem_all_potential_links] at hr
  obtain ⟨cc, hcc, a, ha, b, hb, h1, h2, h3, hreq⟩ := hr
  obtain ⟨_, hacat, _⟩ := mem_nodes_by_cat.mp ha
  obtain ⟨_, hbcat, _⟩ := mem_nodes_by_cat.mp hb
  subst hreq
  refine ⟨h2.1, h2.2, ?_⟩
  show a.2.category ≠ b.2.category
  rw [hacat, hbcat]
  exact pairsTwo_CATEGORY_ORDER_ne cc hcc

/-- Witness for C3: the concrete `m1 → m2` gap record satisfies the
invariant. -/
theorem C3_witness :
    mkGapRecord wG wM ("m1") ⟨.Material, "#377eb8"⟩ ("m2") ⟨.Application, "#e41a1c"⟩ ∈
      all_potential_links wG wM wInfo ∧
    (("m1", "m2") ∉ wG.edges ∧ ("m2", "m1") ∉ wG.edges ∧
      Category.Material ≠ Category.Application) :=
  ⟨by with_unfolding_all decide,
   C3_gap_candidate_invariant wG wM wInfo
     (mkGapRecord wG wM ("m1") ⟨.Material, "#377eb8"⟩ ("m2") ⟨.Application, "#e41a1c"⟩)
     (by with_unfolding_all decide)⟩

/-- Full membership characterization of an unordered candidate pair with
registry data `du`, `dv`, its categories ordered by `CATEGORY_ORDER`
position: its canonical record is listed iff the predicted strength
exceeds the threshold, and any listed record over the pair is the
canonical record. -/
theorem mem_all_potential_links_iff (g : Digraph) (M : CoocMatrix) (info : NodeInfo)
    (u v : String) (du dv : NodeData)
    (hnd : (info.map Prod.fst).Nodup)
    (hu : (u, du) ∈ info) (hv : (v, dv) ∈ info)
    (hidx : catIdx du.category < catIdx dv.category)
    (hug : u ∈ g.nodes) (hvg : v ∈ g.nodes)
    (he1 : (u, v) ∉ g.edges) (he2 : (v, u) ∉ g.edges) :
    (mkGapRecord g M u du v dv ∈ all_potential_links g M info ↔
      1 < predicted_link_strength g M du.category dv.category u v) ∧
    (∀ r ∈ all_potential_links g M info,
      (r.sourceNode = u ∧ r.targetNode = v) ∨ (r.sourceNode = v ∧ r.targetNode = u) →
      r = mkGapRecord g M u du v dv ∧
        1 < predicted_link_strength g M du.category dv.category u v) := by
  have hne : u ≠ v := by
    intro e
    subst e
    have hdd := infoMem_unique hnd hu hv
    rw [hdd] at hidx
    exact lt_irrefl _ hidx
  have hana : ∀ r ∈ all_potential_links g M info,
      (r.sourceNode = u ∧ r.targetNode = v) ∨ (r.sourceNode = v ∧ r.targetNode = u) →
      r = mkGapRecord g M u du v dv ∧
        1 < predicted_link_strength g M du.category dv.category u v := by
    intro r hr hst
    rw [mem_all_potential_links] at hr
    obtain ⟨cc, hcc, a, ha, b, hb, h1, h2, h3, hreq⟩ := hr
    obtain ⟨hainfo, hacat, hag⟩ := mem_nodes_by_cat.mp ha
    obtain ⟨hbinfo, hbcat, hbg⟩ := mem_nodes_by_cat.mp hb
    have hsrc : r.sourceNode = a.1 := by rw [hreq]; rfl
    have htgt : r.targetNode = b.1 := by rw [hreq]; rfl
    have hainfo2 : (a.1, a.2) ∈ info := by simpa using hainfo
    have hbinfo2 : (b.1, b.2) ∈ info := by simpa using hbinfo
    rcases hst with ⟨h4, h5⟩ | ⟨h4, h5⟩
    · have hau : a.1 = u := by rw [← hsrc, h4]
      have hbv : b.1 = v := by rw [← htgt, h5]
      rw [hau] at hainfo2
      rw [hbv] at hbinfo2
      have ha2 : a.2 = du := infoMem_unique hnd hainfo2 hu
      have hb2 : b.2 = dv := infoMem_unique hnd hbinfo2 hv
      rw [hau, hbv, ha2, hb2] at hreq h3
      exact ⟨hreq, h3⟩
    · have hav : a.1 = v := by rw [← hsrc, h4]
      have hbu : b.1 = u := by rw [← htgt, h5]
      rw [hav] at hainfo2
      rw [hbu] at hbinfo2
      have ha2 : a.2 = dv := infoMem_unique hnd hainfo2 hv
      have hb2 : b.2 = du := infoMem_unique hnd hbinfo2 hu
      have hlt := pairsTwo_CATEGORY_ORDER_idx cc hcc
      rw [← hacat, ← hbcat, ha2, hb2] at hlt
      exact absurd hidx (lt_asymm hlt)
  refine ⟨⟨?_, ?_⟩, hana⟩
  · intro hr
    exact (hana _ hr (Or.inl ⟨rfl, rfl⟩)).2
  · intro hstrength
    rw [mem_all_potential_links]
    refine ⟨(du.category, dv.category), mem_pairsTwo_CATEGORY_ORDER _ _ hidx,
      (u, du), mem_nodes_by_cat.mpr ⟨hu, rfl, hug⟩,
      (v, dv), mem_nodes_by_cat.mpr ⟨hv, rfl, hvg⟩, ?_, ⟨he1, he2⟩, hstrength, rfl⟩
    push_neg
    exact ⟨hne, hug, hvg⟩

/-- C1: for an unordered pair of in-graph concepts from different
categories (ordered here by taxonomy position) with no edge between them
in either direction, the pair appears in the gap-candidate list iff
`2·topological + max(0, co-occurrence) + bridge-bonus` strictly exceeds
the threshold `1.0`, and any record listed for the pair is the canonical
record carrying exactly these scores. -/
theorem C1_gap_scorer_threshold (g : Digraph) (M : CoocMatrix) (info : NodeInfo)
    (u v : String) (du dv : NodeData)
    (hnd : (info.map Prod.fst).Nodup)
    (hu : (u, du) ∈ info) (hv : (v, dv) ∈ info)
    (hidx : catIdx du.category < catIdx dv.category)
    (hug : u ∈ g.nodes) (hvg : v ∈ g.nodes)
    (he1 : (u, v) ∉ g.edges) (he2 : (v, u) ∉ g.edges) :
    ((∃ r ∈ all_potential_links g M info,
        (r.sourceNode = u ∧ r.targetNode = v) ∨ (r.sourceNode = v ∧ r.targetNode = u)) ↔
      1 < 2 * (topo_score g u v : ℚ) + max 0 (cooc_score M u v) +
            bridge_bonus du.category dv.category) ∧
    (∀ r ∈ all_potential_links g M info, r.sourceNode = u → r.targetNode = v →
      r = mkGapRecord g M u du v dv) := by
  obtain ⟨hmem, hana⟩ :=
    mem_all_potential_links_iff g M info u v du dv hnd hu hv hidx hug hvg he1 he2
  have hseq : predicted_link_strength g M du.category dv.category u v =
      2 * (topo_score g u v : ℚ) + max 0 (cooc_score M u v) +
        bridge_bonus du.category dv.category := by
    unfold predicted_link_strength
    ring
  constructor
  · constructor
    · rintro ⟨r, hr, hst⟩
      rw [← hseq]
      exact (hana r hr hst).2
    · intro h
      rw [← hseq] at h
      exact ⟨mkGapRecord g M u du v dv, hmem.mpr h, Or.inl ⟨rfl, rfl⟩⟩
  · intro r hr h4 h5
    exact (hana r hr (Or.inl ⟨h4, h5⟩)).1

/-- Witness for C1: the concrete Material/Application pair `(m1, m2)`
with co-occurrence `1/2` is listed (strength `3/2 > 1`). -/
theorem C1_witness :
    ("m1", (⟨.Material, "#377eb8"⟩ : NodeData)) ∈ wInfo ∧
    ((∃ r ∈ all_potential_links wG wM wInfo,
        (r.sourceNode = "m1" ∧ r.targetNode = "m2") ∨
        (r.sourceNode = "m2" ∧ r.targetNode = "m1")) ↔
      1 < 2 * (topo_score wG ("m1") ("m2") : ℚ) + max 0 (cooc_score wM ("m1") ("m2")) +
            bridge_bonus Category.Material Category.Application) :=
  ⟨by with_unfolding_all decide,
   (C1_gap_scorer_threshold wG wM wInfo ("m1") ("m2")
     ⟨.Material, "#377eb8"⟩ ⟨.Application, "#e41a1c"⟩
     (by with_unfolding_all decide) (by with_unfolding_all decide)
     (by with_unfolding_all decide) (by with_unfolding_all decide)
     (by with_unfolding_all decide) (by with_unfolding_all decide)
     (by with_unfolding_all decide) (by with_unfolding_all decide)).1⟩

/-- C10: a candidate pair one of whose concepts is missing from the
matrix labels gets co-occurrence component `0`, and is still scored —
listed iff `2·topological + bridge-bonus` exceeds the threshold. -/
theorem C10_missing_matrix_entry_defaults (g : Digraph) (M : CoocMatrix) (info : NodeInfo)
    (u v : String) (du dv : NodeData)
    (hnd : (info.map Prod.fst).Nodup)
    (hu : (u, du) ∈ info) (hv : (v, dv) ∈ info)
    (hidx : catIdx du.category < catIdx dv.category)
    (hug : u ∈ g.nodes) (hvg : v ∈ g.nodes)
    (he1 : (u, v) ∉ g.edges) (he2 : (v, u) ∉ g.edges)
    (hmiss : u ∉ M.index ∨ v ∉ M.cols) :
    cooc_score M u v = 0 ∧
    (mkGapRecord g M u du v dv ∈ all_potential_links g M info ↔
      1 < 2 * (topo_score g u v : ℚ) + bridge_bonus du.category dv.category) := by
  have hc : cooc_score M u v = 0 := by
    unfold cooc_score
    rw [if_neg]
    rintro ⟨h1, h2⟩
    rcases hmiss with h | h
    · exact h h1
    · exact h h2
  obtain ⟨hmem, _⟩ :=
    mem_all_potential_links_iff g M info u v du dv hnd hu hv hidx hug hvg he1 he2
  have hseq : predicted_link_strength g M du.category dv.category u v =
      2 * (topo_score g u v : ℚ) + bridge_bonus du.category dv.category := by
    unfold predicted_link_strength
    rw [hc]
    ring_nf
    simp
  rw [hmem, hseq]
  exact ⟨hc, Iff.rfl⟩

/-- Witness for C10: the Theory/Application pair `(alpha, m2)` with
`alpha` missing from the matrix labels is still listed
(`0 + 3/2 > 1`). -/
theorem C10_witness :
    ("alpha" : String) ∉ wM10.index ∧
    (cooc_score wM10 ("alpha") ("m2") = 0 ∧
      (mkGapRecord wG wM10 ("alpha") ⟨.Theory, "#a65628"⟩ ("m2") ⟨.Application, "#e41a1c"⟩ ∈
          all_potential_links wG wM10 wInfo ↔
        1 < 2 * (topo_score wG ("alpha") ("m2") : ℚ) +
              bridge_bonus Category.Theory Category.Application)) :=
  ⟨by with_unfolding_all decide,
   C10_missing_matrix_entry_defaults wG wM10 wInfo ("alpha") ("m2")
     ⟨.Theory, "#a65628"⟩ ⟨.Application, "#e41a1c"⟩
     (by with_unfolding_all decide) (by with_unfolding_all decide)
     (by with_unfolding_all decide) (by with_unfolding_all decide)
     (by with_unfolding_all decide) (by with_unfolding_all decide)
     (by with_unfolding_all decide) (by with_unfolding_all decide)
     (by with_unfolding_all decide)⟩

/-- A listed neighbour really is joined by an undirected edge. -/
theorem neighbors_hasEdge {g : WGraph} {u n : String} (h : n ∈ g.neighbors u) :
    g.hasEdge u n := by
  unfold WGraph.neighbors at h
  rw [List.mem_filterMap] at h
  obtain ⟨e, he, hee⟩ := h
  unfold WGraph.hasEdge WGraph.findEdge
  rw [List.find?_isSome]
  by_cases h1 : e.1 = u
  · rw [if_pos h1] at hee
    refine ⟨e, he, ?_⟩
    simp only [decide_eq_true_eq]
    exact Or.inl ⟨h1, Option.some_injective _ hee⟩
  · rw [if_neg h1] at hee
    by_cases h2 : e.2.1 = u
    · rw [if_pos h2] at hee
      refine ⟨e, he, ?_⟩
      simp only [decide_eq_true_eq]
      exact Or.inr ⟨Option.some_injective _ hee, h2⟩
    · rw [if_neg h2] at hee
      cases hee

/-- Every edge weight read off the pruned co-occurrence graph strictly
exceeds the pruning threshold. -/
theorem prunedGraph_weight_gt {M : CoocMatrix} {minW : ℚ} {u v : String}
    (h : (prunedGraph M minW).hasEdge u v) :
    minW < (prunedGraph M minW).weight u v := by
  unfold WGraph.hasEdge at h
  obtain ⟨e, he⟩ := Option.isSome_iff_exists.mp h
  have hw : (prunedGraph M minW).weight u v = e.2.2 := by
    unfold WGraph.weight
    rw [he]
    rfl
  rw [hw]
  have hmem : e ∈ (prunedGraph M minW).edges :=
    List.mem_of_find?_eq_some he
  have hmem2 : e ∈ (pairsTwo M.cols).filterMap (fun p =>
      if p.1 ∈ M.index ∧ p.2 ∈ M.cols ∧ p.1 ≠ p.2 ∧ minW < M.entry p.1 p.2 then
        some (p.1, p.2, M.entry p.1 p.2)
      else none) := hmem
  rw [List.mem_filterMap] at hmem2
  obtain ⟨p, hp, hpe⟩ := hmem2
  by_cases hc : p.1 ∈ M.index ∧ p.2 ∈ M.cols ∧ p.1 ≠ p.2 ∧ minW < M.entry p.1 p.2
  · rw [if_pos hc] at hpe
    rw [← Option.some_injective _ hpe]
    exact hc.2.2.2
  · rw [if_neg hc] at hpe
    cases hpe

/-- Every path produced by the bounded depth-first enumeration starts at
the current node and walks along edges of the graph. -/
theorem simplePathsAux_chain (g : WGraph) (target : String) :
    ∀ (fuel : Nat) (cur : String) (visited : List String) (p : List String),
      p ∈ simplePathsAux g target fuel cur visited →
      ∃ q, p = cur :: q ∧ ∀ e ∈ consecPairs p, g.hasEdge e.1 e.2 := by
  intro fuel
  induction fuel with
  | zero =>
      intro cur visited p hp
      unfold simplePathsAux at hp
      by_cases h : cur = target
      · rw [if_pos h, List.mem_singleton] at hp
        refine ⟨[], hp, ?_⟩
        rw [hp]
        intro e he
        cases he
      · rw [if_neg h] at hp
        cases hp
  | succ f ih =>
      intro cur visited p hp
      unfold simplePathsAux at hp
      by_cases h : cur = target
      · rw [if_pos h, List.mem_singleton] at hp
        refine ⟨[], hp, ?_⟩
        rw [hp]
        intro e he
        cases he
      · rw [if_neg h, List.mem_flatMap] at hp
        obtain ⟨n, hn, hpm⟩ := hp
        rw [List.mem_map] at hpm
        obtain ⟨q, hq, hpq⟩ := hpm
        obtain ⟨q2, hq2, hchain⟩ := ih n (visited ++ [n]) q hq
        have hedge : g.hasEdge cur n :=
          neighbors_hasEdge (List.mem_filter.mp hn).1
        refine ⟨q, hpq.symm, ?_⟩
        rw [← hpq, hq2]
        intro e he
        have hcp : consecPairs (cur :: n :: q2) = (cur, n) :: consecPairs (n :: q2) := rfl
        rw [hcp] at he
        rcases List.mem_cons.mp he with he1 | he1
        · rw [he1]
          exact hedge
        · rw [hq2] at hchain
          exact hchain e he1

/-- On a path all of whose edges lie in the pruned graph, the scoring
loop returns the edge-weight list, the explicit-link count and the
hierarchical-flow count. -/
theorem score_steps_chain (gd : Digraph) (gc : WGraph) (info : NodeInfo)
    (l : List (String × String)) (h : ∀ e ∈ l, gc.hasEdge e.1 e.2) :
    score_steps gd gc info l =
      some ⟨l.map (fun e => gc.weight e.1 e.2),
            l.countP (fun e => decide ((e.1, e.2) ∈ gd.edges)),
            l.countP (fun e => hier_step info e.1 e.2)⟩ := by
  induction l with
  | nil => rfl
  | cons e rest ih =>
      unfold score_steps
      rw [if_pos (h e (List.mem_cons_self e rest))]
      rw [ih (fun x hx => h x (List.mem_cons_of_mem e hx))]
      simp [List.countP_cons, Nat.add_comm]

/-- C4: every path enumerated between start and end in the pruned
co-occurrence graph (with a non-negative pruning threshold) is scored
`10·(average edge weight) + 5·(explicit-link count) +
2·(hierarchical-flow count) + (category span if ≥ 3 else 0)`, and the
score is never negative. -/
theorem C4_trajectory_score (gd : Digraph) (M : CoocMatrix) (info : NodeInfo)
    (s t : String) (cutoff : Nat) (minW : ℚ) (p : List String)
    (hmin : 0 ≤ minW)
    (hp : p ∈ all_simple_paths (prunedGraph M minW) s t cutoff)
    (hlen : 2 ≤ p.length) :
    ∃ r, score_path gd (prunedGraph M minW) info p = some r ∧
      r.score =
        10 * (((consecPairs p).map
                (fun e => (prunedGraph M minW).weight e.1 e.2)).sum /
              ((consecPairs p).length : ℚ)) +
        5 * ((consecPairs p).countP (fun e => decide ((e.1, e.2) ∈ gd.edges)) : ℚ) +
        2 * ((consecPairs p).countP (fun e => hier_step info e.1 e.2) : ℚ) +
        (if 3 ≤ (path_categories info p).card
          then ((path_categories info p).card : ℚ) else 0) ∧
      0 ≤ r.score := by
  obtain ⟨q, hpq, hchain⟩ :=
    simplePathsAux_chain (prunedGraph M minW) t cutoff s [s] p hp
  have hqne : q ≠ [] := by
    intro hq
    rw [hpq, hq] at hlen
    exact absurd hlen (by norm_num)
  have hsteps := score_steps_chain gd (prunedGraph M minW) info (consecPairs p) hchain
  have hcne : (consecPairs p).map
      (fun e => (prunedGraph M minW).weight e.1 e.2) ≠ [] := by
    obtain ⟨x, xs, hxs⟩ := List.exists_cons_of_ne_nil hqne
    rw [hpq, hxs]
    intro hcontra
    cases hcontra
  have hscore : score_path gd (prunedGraph M minW) info p =
      some { pathNodes := p
             pathStr := " -> ".intercalate p
             score :=
               (((consecPairs p).map
                  (fun e => (prunedGraph M minW).weight e.1 e.2)).sum /
                (((consecPairs p).map
                  (fun e => (prunedGraph M minW).weight e.1 e.2)).length : ℚ)) * 10 +
               ((consecPairs p).countP (fun e => decide ((e.1, e.2) ∈ gd.edges)) : ℚ) * 5 +
               ((consecPairs p).countP (fun e => hier_step info e.1 e.2) : ℚ) * 2 +
               ((if 3 ≤ (path_categories info p).card
                  then (path_categories info p).card else 0 : Nat) : ℚ) * 1
             pathLength := p.length
             avgCoocScore := round3
               (((consecPairs p).map
                  (fun e => (prunedGraph M minW).weight e.1 e.2)).sum /
                (((consecPairs p).map
                  (fun e => (prunedGraph M minW).weight e.1 e.2)).length : ℚ))
             numExplicitLinks :=
               (consecPairs p).countP (fun e => decide ((e.1, e.2) ∈ gd.edges))
             hierarchicalFlowScore :=
               (consecPairs p).countP (fun e => hier_step info e.1 e.2)
             categorySpanScore :=
               if 3 ≤ (path_categories info p).card
                then (path_categories info p).card else 0 } := by
    rw [hpq] at hsteps ⊢
    rw [hpq] at hcne
    unfold score_path
    rw [hsteps]
    simp only [if_neg hcne]
  have hwnonneg : ∀ x ∈ (consecPairs p).map
      (fun e => (prunedGraph M minW).weight e.1 e.2), (0 : ℚ) ≤ x := by
    intro x hx
    rw [List.mem_map] at hx
    obtain ⟨e, he, hxe⟩ := hx
    rw [← hxe]
    exact le_of_lt (lt_of_le_of_lt hmin (prunedGraph_weight_gt (hchain e he)))
  have hsum : (0 : ℚ) ≤ ((consecPairs p).map
      (fun e => (prunedGraph M minW).weight e.1 e.2)).sum :=
    List.sum_nonneg hwnonneg
  have havg : (0 : ℚ) ≤ ((consecPairs p).map
      (fun e => (prunedGraph M minW).weight e.1 e.2)).sum /
        ((consecPairs p).length : ℚ) :=
    div_nonneg hsum (by positivity)
  have hspan : (0 : ℚ) ≤ if 3 ≤ (path_categories info p).card
      then ((path_categories info p).card : ℚ) else 0 := by
    split
    · positivity
    · exact le_refl 0
  refine ⟨_, hscore, ?_, ?_⟩
  · rw [List.length_map]
    push_cast [apply_ite (fun n : Nat => (n : ℚ))]
    ring
  · rw [List.length_map]
    push_cast [apply_ite (fun n : Nat => (n : ℚ))]
    have h5 : (0 : ℚ) ≤ ((consecPairs p).countP
        (fun e => decide ((e.1, e.2) ∈ gd.edges)) : ℚ) := by positivity
    have h2 : (0 : ℚ) ≤ ((consecPairs p).countP
        (fun e => hier_step info e.1 e.2) : ℚ) := by positivity
    nlinarith [havg, hspan, h5, h2]

/-- Witness for C4: the enumerated path `alpha → beta → m2` in the
concrete pruned graph. -/
theorem C4_witness :
    ["alpha", "beta", "m2"] ∈
      all_simple_paths (prunedGraph wM4 (3/10)) ("alpha") ("m2") 4 ∧
    ∃ r, score_path wG (prunedGraph wM4 (3/10)) wInfo ["alpha", "beta", "m2"] = some r ∧
      r.score =
        10 * (((consecPairs ["alpha", "beta", "m2"]).map
                (fun e => (prunedGraph wM4 (3/10)).weight e.1 e.2)).sum /
              ((consecPairs ["alpha", "beta", "m2"]).length : ℚ)) +
        5 * ((consecPairs ["alpha", "beta", "m2"]).countP
              (fun e => decide ((e.1, e.2) ∈ wG.edges)) : ℚ) +
        2 * ((consecPairs ["alpha", "beta", "m2"]).countP
              (fun e => hier_step wInfo e.1 e.2) : ℚ) +
        (if 3 ≤ (path_categories wInfo ["alpha", "beta", "m2"]).card
          then ((path_categories wInfo ["alpha", "beta", "m2"]).card : ℚ) else 0) ∧
      0 ≤ r.score :=
  ⟨by with_unfolding_all decide,
   C4_trajectory_score wG wM4 wInfo ("alpha") ("m2") 4 (3/10) ["alpha", "beta", "m2"]
     (by norm_num) (by with_unfolding_all decide) (by norm_num)⟩

/-- Insertion into a sorted string list preserves membership. -/
theorem mem_insertStrLe (x a : String) (l : List String) :
    a ∈ insertStrLe x l ↔ a = x ∨ a ∈ l := by
  induction l with
  | nil => simp [insertStrLe]
  | cons y ys ih =>
      unfold insertStrLe
      by_cases h : x ≤ y
      · rw [if_pos h]
        simp
      · rw [if_neg h]
        simp [ih]
        tauto

/-- Sorting preserves membership. -/
theorem mem_sortStrings (a : String) (l : List String) :
    a ∈ sortStrings l ↔ a ∈ l := by
  induction l with
  | nil => simp [sortStrings]
  | cons x xs ih =>
      unfold sortStrings
      rw [mem_insertStrLe, ih]
      simp

/-- The Pearson correlation is symmetric in its two vectors. -/
theorem pearson_comm (x y : List ℝ) : pearson x y = pearson y x := by
  unfold pearson
  rw [mul_comm (sqDevSum x) (sqDevSum y)]
  congr 1
  exact congrArg List.sum (List.zipWith_comm_of_comm _ (fun a b : ℝ => mul_comm a b) _ _)

/-- The Spearman correlation is symmetric. -/
theorem spearman_comm (x y : List Nat) : spearman x y = spearman y x :=
  pearson_comm _ _

/-- C5: the co-occurrence matrix is symmetric over its retained concept
labels; the retained concepts are exactly the registry concepts with
nonzero total reference count across the documents; and an undefined
correlation (a rank vector with zero squared deviation — pandas `NaN`)
yields the entry `0`, as `.fillna(0)` prescribes. -/
theorem C5_cooccurrence_matrix (files : List Doc) (info : NodeInfo) :
    (∀ u v, u ∈ (build_cooccurrence_data files info).concepts →
      v ∈ (build_cooccurrence_data files info).concepts →
      (build_cooccurrence_data files info).entry u v =
        (build_cooccurrence_data files info).entry v u) ∧
    (∀ c, c ∈ (build_cooccurrence_data files info).concepts ↔
      c ∈ info.map Prod.fst ∧ 0 < totalAbundance files c) ∧
    (∀ u v, sqDevSum ((rankVector (abundanceVec files u)).map (fun q => (q : ℝ))) = 0 ∨
            sqDevSum ((rankVector (abundanceVec files v)).map (fun q => (q : ℝ))) = 0 →
      (build_cooccurrence_data files info).entry u v = 0) := by
  refine ⟨fun u v _ _ => spearman_comm _ _, fun c => ?_, fun u v h => ?_⟩
  · show c ∈ retainedConcepts files info ↔ _
    unfold retainedConcepts cooccIndex
    rw [List.mem_filter, mem_sortStrings]
    simp
  · show spearman (abundanceVec files u) (abundanceVec files v) = 0
    unfold spearman pearson
    rcases h with h | h <;> rw [h] <;> simp

/-- Witness for C5: in the two-document corpus both `beta` and `m1` are
retained, and their correlation entries agree in both orders. -/
theorem C5_witness :
    ("beta" : String) ∈ (build_cooccurrence_data w5Files w5Info).concepts ∧
    ("m1" : String) ∈ (build_cooccurrence_data w5Files w5Info).concepts ∧
    (build_cooccurrence_data w5Files w5Info).entry ("beta") ("m1") =
      (build_cooccurrence_data w5Files w5Info).entry ("m1") ("beta") :=
  ⟨by with_unfolding_all decide, by with_unfolding_all decide,
   (C5_cooccurrence_matrix w5Files w5Info).1 ("beta") ("m1")
     (by with_unfolding_all decide) (by with_unfolding_all decide)⟩

end RDE
